import Mathlib

/-!
# mcdb — verification of the core constant-database spec

A shallow embedding of the mcdb constant key/value database.  The repository
ships the public header `src/mcdb.h` (struct layout, macros, constants) while
the function bodies (`mcdb.c`, `mcdb_make.c`) are not under `src/`; functions
whose bodies are missing are modelled from the specification and say so in
their doc comment.  Machine integers are modelled as `Nat` with explicit
`% 2^32` where 32-bit wraparound matters.  Byte strings are `List Nat`.

Abstractions used throughout (stated once here):
* a record's file offset is modelled by its index in the record list
  (on disk an empty hash-table entry has `record_offset == 0`; here an empty
  entry is `none`, an occupied one `some (hash, recordIndex)`);
* a hash-table entry's 12 bytes `(u32be hash, u64be offset)` become the pair
  `(Nat, Nat)`; advancing `kpos` by 12 with wrap becomes `+ 1` modulo the
  table size;
* the mmap base pointer is the `McdbFile` value itself, passed explicitly.
-/

/-! ## Constants from src/mcdb.h (lines 187-191), exactly as written -/

/-- `#define MCDB_SLOT_BITS 8` from src/mcdb.h line 187. -/
def MCDB_SLOT_BITS : Nat := 8

/-- `#define MCDB_SLOTS (1u<<(MCDB_SLOT_BITS-1))` from src/mcdb.h line 188,
as the code writes it (an unsigned 32-bit shift).  The comment on that line
says `2^8 = 256`. -/
def MCDB_SLOTS : Nat := (1 <<< (MCDB_SLOT_BITS - 1)) % 2 ^ 32

/-- `#define MCDB_SLOT_MASK (MCDB_SLOTS-1)` from src/mcdb.h line 189. -/
def MCDB_SLOT_MASK : Nat := (MCDB_SLOTS - 1) % 2 ^ 32

/-- `#define MCDB_HEADER_SZ (MCDB_SLOTS<<4)` from src/mcdb.h line 190.
The comment on that line says `MCDB_SLOTS * 16  (256*16=4096)`. -/
def MCDB_HEADER_SZ : Nat := (MCDB_SLOTS <<< 4) % 2 ^ 32

/-! ## Hash function (spec 4.1) -/

/-- One step of the 32-bit djb hash: `h = ((h << 5) + h) ^ b` with 32-bit
wraparound (spec 4.1; implementation `uint32_hash_djb` is not under src/). -/
def hashStep (h b : Nat) : Nat := (((h <<< 5) + h) % 2 ^ 32) ^^^ b

/-- Modelled from the spec: the djb hash of a byte string, starting state
5381 (spec 4.1). -/
def hashDjb (key : List Nat) : Nat := key.foldl hashStep 5381

/-- Modelled from the spec: the effective key of a tagged lookup or insert.
A non-zero tag byte is "conceptually prepended to the key" (spec 4.5);
tag 0 means untagged. -/
def taggedKey (tag : Nat) (key : List Nat) : List Nat :=
  if tag = 0 then key else tag :: key

/-- Slot index of a hash: the low 8 bits, `h & 0xFF` (spec 4.3 step 2,
spec invariant 1). -/
def slotOfHash (h : Nat) : Nat := h % 256

/-- Start probe position of a hash in a table of `n` slots:
`(h >> 8) mod n` (spec 4.3 step 3, 4.5 step 1). -/
def startOfHash (h n : Nat) : Nat := (h / 256) % n

/-! ## Data model: file, builder state, reader cursor -/

/-- The mmapped constant database as the reader sees it: 256 per-slot hash
tables (spec section 3, region 3) and the record stream (region 2).  Each
table entry is `some (hash, recordIndex)` or `none` for an empty entry. -/
structure McdbFile where
  tables : List (List (Option (Nat × Nat)))
  records : List (List Nat × List Nat)
deriving Repr, DecidableEq

/-- Record key at a record index (reading a record header and its key bytes
from the mapping). -/
def recordKey (f : McdbFile) (ri : Nat) : List Nat := (f.records.getD ri ([], [])).1

/-- Record value at a record index. -/
def recordVal (f : McdbFile) (ri : Nat) : List Nat := (f.records.getD ri ([], [])).2

/-- `struct mcdb` from src/mcdb.h lines 91-100: the reader cursor.  The
`map` pointer is passed separately as the `McdbFile` argument of each
operation; the remaining fields appear in order. -/
structure Mcdb where
  loop : Nat
  hslots : Nat
  kpos : Nat
  hpos : Nat
  dpos : Nat
  dlen : Nat
  khash : Nat
deriving Repr, DecidableEq

/-- A fresh cursor, all fields zero. -/
def Mcdb.start : Mcdb := ⟨0, 0, 0, 0, 0, 0, 0⟩

/-- Builder state: the sequence of accepted input pairs (the record stream,
abstracted; spec 4.3). -/
structure McdbMake where
  pairs : List (List Nat × List Nat)
deriving Repr, DecidableEq

/-! ## Builder (spec 4.3) — modelled from the spec (mcdb_make.c not in src/) -/

/-- Modelled from the spec: the builder's arbitrary length limit on each key
or data item, `INT_MAX - 8` bytes (src/mcdb.h line 28 limitations comment;
spec boundary case "Keys of length 2^31 - 9 accepted; 2^31 - 8 rejected"). -/
def mcdb_make_len_ok (len : Nat) : Bool := len ≤ 2 ^ 31 - 1 - 8

/-- Modelled from the spec: `Builder.add(key, value)` (spec 6, builder API;
spec 4.3 step 2).  Appends the record when both lengths are acceptable;
duplicate keys are permitted (no key comparison is made). -/
def mcdb_make_add (b : McdbMake) (key value : List Nat) : Bool × McdbMake :=
  if mcdb_make_len_ok key.length && mcdb_make_len_ok value.length
  then (true, ⟨b.pairs ++ [(key, value)]⟩)
  else (false, b)

/-- Modelled from the spec: least power of two that is at least `target`
("next_power_of_two", spec 4.3 step 3), via fuel-bounded doubling. -/
def nextPow2Aux (target : Nat) : Nat → Nat → Nat
  | 0, acc => acc
  | fuel + 1, acc => if target ≤ acc then acc else nextPow2Aux target fuel (acc * 2)

/-- Modelled from the spec: `next_power_of_two` (spec 4.3 step 3). -/
def nextPow2 (target : Nat) : Nat := nextPow2Aux target target 1

/-- Modelled from the spec: the hash-table size for a bucket holding `count`
records, `slots = max(2, next_power_of_two(2 * count))` (spec 4.3 step 3). -/
def hslotsFor (count : Nat) : Nat := max 2 (nextPow2 (2 * count))

/-- Table cell at an index (an out-of-range read yields an empty entry). -/
def tableGet (t : List (Option (Nat × Nat))) (i : Nat) : Option (Nat × Nat) :=
  t.getD i none

/-- The cell at probe distance `d` from start position `s`, with wrap. -/
def probeRead (t : List (Option (Nat × Nat))) (s d : Nat) : Option (Nat × Nat) :=
  tableGet t ((s + d) % t.length)

/-- First counter value `d` in `[d0, d0 + fuel)` satisfying `p`, if any. -/
def findFirst (p : Nat → Bool) : Nat → Nat → Option Nat
  | _, 0 => none
  | d, fuel + 1 => if p d then some d else findFirst p (d + 1) fuel

/-- Modelled from the spec: insert one `(hash, recordIndex)` entry into a
bucket table at probe position `(h >> 8) mod slots`, linearly probing
forward with wrap until an empty entry is found (spec 4.3 step 3). -/
def tableInsert (t : List (Option (Nat × Nat))) (e : Nat × Nat) :
    List (Option (Nat × Nat)) :=
  let s := startOfHash e.1 t.length
  match findFirst (fun d => (probeRead t s d).isNone) 0 t.length with
  | some d => t.set ((s + d) % t.length) (some e)
  | none => t

/-- Modelled from the spec: build one bucket's open-addressed hash table from
its `(hash, recordIndex)` list, in input order (spec 4.3 step 3). -/
def buildTable (entries : List (Nat × Nat)) : List (Option (Nat × Nat)) :=
  entries.foldl tableInsert (List.replicate (hslotsFor entries.length) none)

/-- Modelled from the spec: the per-slot in-memory `(hash, offset)` list the
builder accumulates in input order (spec 4.3 step 2); `i` is the record
index of the first pair. -/
def bucketEntriesFrom (b : Nat) (i : Nat) :
    List (List Nat × List Nat) → List (Nat × Nat)
  | [] => []
  | p :: ps =>
    if slotOfHash (hashDjb p.1) = b
    then (hashDjb p.1, i) :: bucketEntriesFrom b (i + 1) ps
    else bucketEntriesFrom b (i + 1) ps

/-- Modelled from the spec: `Builder.finish()` — emit the 256 per-slot hash
tables and the header over the accumulated record stream (spec 4.3 steps
3-5), producing the reader's view of the file. -/
def mcdb_make_finish (b : McdbMake) : McdbFile :=
  { tables := (List.range 256).map (fun s => buildTable (bucketEntriesFrom s 0 b.pairs))
    records := b.pairs }

/-- Modelled from the spec: build a database from tagged inputs
`(tag, key, value)` via the tag-prefixing convention (spec 4.5, spec
scenario 5): each record is stored under its effective (tag-prepended) key. -/
def mcdb_make_tagged (inputs : List (Nat × List Nat × List Nat)) : McdbFile :=
  mcdb_make_finish ⟨inputs.map (fun e => (taggedKey e.1 e.2.1, e.2.2))⟩

/-! ## Reader cursor operations (spec 4.5) — modelled from the spec
(mcdb.c not in src/) -/

/-- Modelled from the spec: `mcdb_findtagstart` (declared src/mcdb.h lines
102-105; body not under src/).  "Always succeeds and returns `true`; resets
match state" (spec 4.5): the probe counter `loop` is reset so that the next
`mcdb_findtagnext` call re-initializes the probe sequence (spec 4.5 step 1
runs when `loop == 0`). -/
def mcdb_findtagstart (f : McdbFile) (key : List Nat) (tag : Nat) (m : Mcdb) :
    Bool × Mcdb :=
  (true, { m with loop := 0 })

/-- Modelled from the spec: the probe loop of `mcdb_findtagnext` (spec 4.5
step 2), entered with `fuel = hslots - loop` so that it stops exactly when
`loop` reaches `hslots` (spec 4.5 step 3).  `tk` is the effective key. -/
def probeLoop (f : McdbFile) (tk : List Nat) : Nat → Mcdb → Bool × Mcdb
  | 0, m => (false, m)
  | fuel + 1, m =>
    match tableGet (f.tables.getD m.hpos []) m.kpos with
    | none => (false, m)
    | some e =>
      let m' := { m with kpos := (m.kpos + 1) % m.hslots, loop := m.loop + 1 }
      if (e.1 == m.khash) && (recordKey f e.2 == tk)
      then (true, { m' with dpos := e.2, dlen := (recordVal f e.2).length })
      else probeLoop f tk fuel m'

/-- Modelled from the spec: `mcdb_findtagnext` (declared src/mcdb.h lines
106-109; body not under src/).  On the first call (`loop == 0`) it computes
the hash, reads the slot descriptor, fails if the table is empty, and seeds
the cursor (spec 4.5 step 1); then it probes while `loop < hslots`
(spec 4.5 steps 2-3). -/
def mcdb_findtagnext (f : McdbFile) (key : List Nat) (tag : Nat) (m : Mcdb) :
    Bool × Mcdb :=
  let tk := taggedKey tag key
  if m.loop = 0 then
    let h := hashDjb tk
    let t := f.tables.getD (slotOfHash h) []
    if t.length = 0 then (false, m)
    else
      probeLoop f tk t.length
        { m with khash := h, hslots := t.length, hpos := slotOfHash h,
                 kpos := startOfHash h t.length, loop := 0 }
  else probeLoop f tk (m.hslots - m.loop) m

/-- `#define mcdb_findstart(m,key,klen) mcdb_findtagstart((m),(key),(klen),0)`
from src/mcdb.h line 111. -/
def mcdb_findstart (f : McdbFile) (key : List Nat) (m : Mcdb) : Bool × Mcdb :=
  mcdb_findtagstart f key 0 m

/-- `#define mcdb_findnext(m,key,klen) mcdb_findtagnext((m),(key),(klen),0)`
from src/mcdb.h line 112. -/
def mcdb_findnext (f : McdbFile) (key : List Nat) (m : Mcdb) : Bool × Mcdb :=
  mcdb_findtagnext f key 0 m

/-- `#define mcdb_find(m,key,klen)
(mcdb_findstart((m),(key),(klen)) && mcdb_findnext((m),(key),(klen)))`
from src/mcdb.h lines 113-114, with C short-circuit `&&` semantics. -/
def mcdb_find (f : McdbFile) (key : List Nat) (m : Mcdb) : Bool × Mcdb :=
  let s := mcdb_findstart f key m
  if s.1 then mcdb_findnext f key s.2 else (false, s.2)

/-- `#define mcdb_datapos(m) ((m)->dpos)` from src/mcdb.h line 120. -/
def mcdb_datapos (m : Mcdb) : Nat := m.dpos

/-- `#define mcdb_datalen(m) ((m)->dlen)` from src/mcdb.h line 121. -/
def mcdb_datalen (m : Mcdb) : Nat := m.dlen

/-- `#define mcdb_dataptr(m) ((m)->map->ptr+(m)->dpos)` from src/mcdb.h line
122: the matched value bytes, read from the mapping at the data position. -/
def mcdb_dataptr (f : McdbFile) (m : Mcdb) : List Nat := recordVal f m.dpos

/-- Successive `mcdb_findtagnext` calls from cursor `m`, collecting the
matched values (via `mcdb_dataptr`) until a call returns `false`;
`fuel` bounds the number of calls. -/
def findIter (f : McdbFile) (key : List Nat) (tag : Nat) :
    Nat → Mcdb → List (List Nat)
  | 0, _ => []
  | fuel + 1, m =>
    let r := mcdb_findtagnext f key tag m
    if r.1 then mcdb_dataptr f r.2 :: findIter f key tag fuel r.2 else []

/-- All values a reader retrieves for a tagged key: `mcdb_findtagstart`
followed by successive `mcdb_findtagnext` calls until one returns `false`
(spec 4.5).  One call more than the bucket's table size always suffices. -/
def mcdb_findall_tagged (f : McdbFile) (tag : Nat) (key : List Nat) :
    List (List Nat) :=
  let s := mcdb_findtagstart f key tag Mcdb.start
  if s.1
  then findIter f key tag
    ((f.tables.getD (slotOfHash (hashDjb (taggedKey tag key))) []).length + 1) s.2
  else []

/-- All values for an untagged key (tag 0, the `mcdb_findstart` /
`mcdb_findnext` macros of src/mcdb.h lines 111-112). -/
def mcdb_findall (f : McdbFile) (key : List Nat) : List (List Nat) :=
  mcdb_findall_tagged f 0 key

/-! ## Pure probe-sequence view of a lookup (proof bridge) -/

/-- The cells a scan visits: probe distances `d, d+1, ...` for `fuel` steps. -/
def visitedFrom (t : List (Option (Nat × Nat))) (s : Nat) :
    Nat → Nat → List (Option (Nat × Nat))
  | _, 0 => []
  | d, fuel + 1 => probeRead t s d :: visitedFrom t s (d + 1) fuel

/-- Entries of a cell list up to (excluding) the first empty cell. -/
def untilNone : List (Option (Nat × Nat)) → List (Nat × Nat)
  | [] => []
  | none :: _ => []
  | some e :: rest => e :: untilNone rest

/-- The entries a full scan of table `t` from start `s` visits before the
first empty cell. -/
def scanSlot (t : List (Option (Nat × Nat))) (s : Nat) : List (Nat × Nat) :=
  untilNone (visitedFrom t s 0 t.length)

/-- The pure rendering of the reader's probe loop: from probe distance `d`
with `fuel` remaining probes, collect the values of entries whose stored
hash is `khash` and whose stored key is `tk`, stopping at an empty cell. -/
def pureScan (f : McdbFile) (tk : List Nat) (khash : Nat)
    (t : List (Option (Nat × Nat))) (s : Nat) : Nat → Nat → List (List Nat)
  | _, 0 => []
  | d, fuel + 1 =>
    match probeRead t s d with
    | none => []
    | some e =>
      if (e.1 == khash) && (recordKey f e.2 == tk)
      then recordVal f e.2 :: pureScan f tk khash t s (d + 1) fuel
      else pureScan f tk khash t s (d + 1) fuel

/-- The number of occupied cells of a table. -/
def countSome (t : List (Option (Nat × Nat))) : Nat :=
  t.countP (fun x => x.isSome)

/-- The linear-probing placement invariant: every stored entry is reachable
from its start position without crossing an empty cell (spec invariant 3). -/
def NoHole (t : List (Option (Nat × Nat))) : Prop :=
  ∀ j e, j < t.length → tableGet t j = some e →
    ∃ D, D < t.length ∧ (startOfHash e.1 t.length + D) % t.length = j ∧
      ∀ d, d < D → (probeRead t (startOfHash e.1 t.length) d).isSome = true

/-- The per-slot hash table an effective key's lookup walks. -/
def bucketOf (f : McdbFile) (tk : List Nat) : List (Option (Nat × Nat)) :=
  f.tables.getD (slotOfHash (hashDjb tk)) []

/-- The start probe position of an effective key within its bucket table. -/
def bucketStart (f : McdbFile) (tk : List Nat) : Nat :=
  startOfHash (hashDjb tk) (bucketOf f tk).length

/-- The entries a scan from `s` visits whose own start position is `s`. -/
def scanSameStart (t : List (Option (Nat × Nat))) (s : Nat) : List (Nat × Nat) :=
  (scanSlot t s).filter (fun e => startOfHash e.1 t.length == s)

/-- The pure probe-sequence result of a whole lookup of effective key `tk`. -/
def pureMatches (f : McdbFile) (tk : List Nat) : List (List Nat) :=
  pureScan f tk (hashDjb tk) (bucketOf f tk) (bucketStart f tk) 0
    (bucketOf f tk).length

/-- Mid-iteration cursor coherence: after `d` probe steps of a lookup of
effective key `tk`, the cursor fields hold the hash, bucket, table size and
wrapped probe position the reader state machine maintains (spec 4.5). -/
def CursorOk (f : McdbFile) (tk : List Nat) (m : Mcdb) (d : Nat) : Prop :=
  m.loop = d ∧ m.khash = hashDjb tk ∧ m.hpos = slotOfHash (hashDjb tk) ∧
  m.hslots = (bucketOf f tk).length ∧
  m.kpos = (bucketStart f tk + d) % (bucketOf f tk).length

/-! ## Mapping, refresh and thread registration (spec 4.4, 4.6, 4.7) -/

/-- `struct mcdb_mmap` from src/mcdb.h lines 78-89, restricted to the fields
the verified claims concern: `ptr` (modelled as an opaque numeric id),
`size`, `mtime`, the volatile successor pointer `next`, and `refcnt`.
The allocator function pointers, directory fd and filename buffer are OS
handles outside this embedding. -/
inductive McdbMmap : Type where
  | mk (ptr : Nat) (size : Nat) (mtime : Nat) (next : Option McdbMmap)
       (refcnt : Nat) : McdbMmap

/-- The mmap pointer field. -/
def McdbMmap.ptr : McdbMmap → Nat | .mk p _ _ _ _ => p

/-- The mmap size field. -/
def McdbMmap.size : McdbMmap → Nat | .mk _ s _ _ _ => s

/-- The mmap file mtime field. -/
def McdbMmap.mtime : McdbMmap → Nat | .mk _ _ t _ _ => t

/-- The successor pointer (`struct mcdb_mmap * volatile next`). -/
def McdbMmap.next : McdbMmap → Option McdbMmap | .mk _ _ _ n _ => n

/-- The registered-access reference count. -/
def McdbMmap.refcnt : McdbMmap → Nat | .mk _ _ _ _ r => r

/-- The head of the successor chain: follow `next` links until the newest
mapping (spec 4.6: "any reader traversing `successor` follows it to the
head"). -/
def McdbMmap.chainHead : McdbMmap → McdbMmap
  | .mk p s t none r => .mk p s t none r
  | .mk _ _ _ (some nxt) _ => nxt.chainHead

/-- The same mapping with its reference count incremented. -/
def McdbMmap.incrRef : McdbMmap → McdbMmap
  | .mk p s t n r => .mk p s t n (r + 1)

/-- The same mapping with its reference count decremented. -/
def McdbMmap.decrRef : McdbMmap → McdbMmap
  | .mk p s t n r => .mk p s t n (r - 1)

/-- Modelled from the spec: `mcdb_mmap_refresh_check` (declared src/mcdb.h
lines 154-156; body not under src/): compares the backing file's current
`(mtime, size)` — obtained via `fstatat`, passed here explicitly — to the
mapping's stored values and reports `true` exactly when they differ, i.e.
when a reopen is needed (spec 4.6 step 1). -/
def mcdb_mmap_refresh_check (stMtime stSize : Nat) (map : McdbMmap) : Bool :=
  !(stMtime == map.mtime && stSize == map.size)

/-- `#define mcdb_mmap_refresh(map)
(!mcdb_mmap_refresh_check(map) || mcdb_mmap_reopen(map))` from src/mcdb.h
lines 138-140, with C short-circuit `||` semantics.  The body of
`mcdb_mmap_reopen` is not under src/, so refresh is parametric in it: the
`reopen` argument stands for `mcdb_mmap_reopen`, returning its success flag
and the resulting mapping state. -/
def mcdb_mmap_refresh (reopen : McdbMmap → Bool × McdbMmap)
    (stMtime stSize : Nat) (map : McdbMmap) : Bool × McdbMmap :=
  if !mcdb_mmap_refresh_check stMtime stSize map then (true, map)
  else reopen map

/-- `MCDB_REGISTER_USE_DECR = 0` from the `enum mcdb_flags` of src/mcdb.h
lines 159-165. -/
def MCDB_REGISTER_USE_DECR : Nat := 0

/-- `MCDB_REGISTER_USE_INCR = 1` from src/mcdb.h line 161. -/
def MCDB_REGISTER_USE_INCR : Nat := 1

/-- `MCDB_REGISTER_MUNMAP_SKIP = 2` from src/mcdb.h line 162. -/
def MCDB_REGISTER_MUNMAP_SKIP : Nat := 2

/-- `MCDB_REGISTER_MUTEX_LOCK_HOLD = 4` from src/mcdb.h line 163. -/
def MCDB_REGISTER_MUTEX_LOCK_HOLD : Nat := 4

/-- `MCDB_REGISTER_MUTEX_UNLOCK_HOLD = 8` from src/mcdb.h line 164. -/
def MCDB_REGISTER_MUTEX_UNLOCK_HOLD : Nat := 8

/-- Modelled from the spec: whether a registration call requests a refcount
increment — the code branch tests `flags & MCDB_REGISTER_USE_INCR`
(spec 4.7, `REGISTER_USE_INCR`). -/
def registrationRequestsIncr (flags : Nat) : Bool :=
  flags &&& MCDB_REGISTER_USE_INCR != 0

/-- Modelled from the spec: whether a registration call requests a refcount
decrement — `MCDB_REGISTER_USE_DECR` is the absence of the
`MCDB_REGISTER_USE_INCR` bit (spec 4.7, `REGISTER_USE_DECR`). -/
def registrationRequestsDecr (flags : Nat) : Bool :=
  flags &&& MCDB_REGISTER_USE_INCR == 0

/-- Modelled from the spec: `mcdb_mmap_thread_registration` (declared
src/mcdb.h lines 167-170; body not under src/).  With the INCR bit it adds
the caller as a user of the successor-chain head, moving the caller's map
pointer there and incrementing that refcount; without it, it removes the
caller, decrementing the refcount (spec 4.7).  It never inspects the file
on disk and never constructs a new mapping (it takes no file state). -/
def mcdb_mmap_thread_registration (map : McdbMmap) (flags : Nat) :
    Bool × McdbMmap :=
  if registrationRequestsIncr flags
  then (true, map.chainHead.incrRef)
  else (true, map.decrRef)

/-- `#define mcdb_thread_register(mcdb)
mcdb_mmap_thread_registration(&(mcdb)->map, MCDB_REGISTER_USE_INCR)` from
src/mcdb.h lines 176-177. -/
def mcdb_thread_register (map : McdbMmap) : Bool × McdbMmap :=
  mcdb_mmap_thread_registration map MCDB_REGISTER_USE_INCR

/-- `#define mcdb_thread_unregister(mcdb)
mcdb_mmap_thread_registration(&(mcdb)->map, MCDB_REGISTER_USE_DECR)` from
src/mcdb.h lines 178-179. -/
def mcdb_thread_unregister (map : McdbMmap) : Bool × McdbMmap :=
  mcdb_mmap_thread_registration map MCDB_REGISTER_USE_DECR

/-- `#define mcdb_thread_refresh_self(mcdb)
(__builtin_expect((mcdb)->map->next == NULL, true)
|| __builtin_expect(mcdb_thread_register(mcdb), true))` from src/mcdb.h
lines 182-184, with C short-circuit `||` semantics (`__builtin_expect` is
the identity on its first argument). -/
def mcdb_thread_refresh_self (map : McdbMmap) : Bool × McdbMmap :=
  match map.next with
  | none => (true, map)
  | some _ => mcdb_thread_register map

/-! # Theorems

## Arithmetic and table-cell helpers -/

theorem probe_inj {n s d₁ d₂ : Nat} (h₁ : d₁ < n) (h₂ : d₂ < n)
    (h : (s + d₁) % n = (s + d₂) % n) : d₁ = d₂ := by
  have h' : d₁ ≡ d₂ [MOD n] := Nat.ModEq.add_left_cancel' s h
  rwa [Nat.ModEq, Nat.mod_eq_of_lt h₁, Nat.mod_eq_of_lt h₂] at h'

theorem probe_surj {n : Nat} (s : Nat) {j : Nat} (hj : j < n) :
    ∃ d, d < n ∧ (s + d) % n = j := by
  have hn : 0 < n := Nat.lt_of_le_of_lt (Nat.zero_le j) hj
  refine ⟨(j + n - s % n) % n, Nat.mod_lt _ hn, ?_⟩
  have hsm : s % n < n := Nat.mod_lt _ hn
  have hdm := Nat.div_add_mod s n
  have h1 : s + (j + n - s % n) = n * (s / n) + (j + n) := by omega
  calc (s + (j + n - s % n) % n) % n
      = (s % n + ((j + n - s % n) % n) % n) % n := by rw [Nat.add_mod]
    _ = (s % n + (j + n - s % n) % n) % n := by
        rw [Nat.mod_mod_of_dvd _ dvd_rfl]
    _ = (s + (j + n - s % n)) % n := by rw [← Nat.add_mod]
    _ = (n * (s / n) + (j + n)) % n := by rw [h1]
    _ = (j + n) % n := by rw [Nat.mul_add_mod]
    _ = j % n := by rw [Nat.add_mod_right]
    _ = j := Nat.mod_eq_of_lt hj

theorem tableGet_set_eq {t : List (Option (Nat × Nat))} {i : Nat}
    (h : i < t.length) (v : Option (Nat × Nat)) :
    tableGet (t.set i v) i = v := by
  simp [tableGet, List.getD_eq_getElem?_getD, List.getElem?_set, h]

theorem tableGet_set_ne {t : List (Option (Nat × Nat))} {i j : Nat}
    (h : i ≠ j) (v : Option (Nat × Nat)) :
    tableGet (t.set i v) j = tableGet t j := by
  simp [tableGet, List.getD_eq_getElem?_getD, List.getElem?_set, h]

theorem tableGet_replicate (n j : Nat) :
    tableGet (List.replicate n (none : Option (Nat × Nat))) j = none := by
  rcases Nat.lt_or_ge j n with h | h
  · simp [tableGet, List.getD_eq_getElem?_getD, List.getElem?_replicate, h]
  · simp [tableGet, List.getD_eq_getElem?_getD, List.getElem?_replicate,
      Nat.not_lt.mpr h]

theorem countSome_replicate (n : Nat) :
    countSome (List.replicate n (none : Option (Nat × Nat))) = 0 := by
  induction n with
  | zero => rfl
  | succ k ih =>
    rw [List.replicate_succ]
    simp only [countSome, List.countP_cons] at *
    simp [ih]

theorem countSome_set_some_le (t : List (Option (Nat × Nat))) (i : Nat)
    (e : Nat × Nat) :
    countSome (t.set i (some e)) ≤ countSome t + 1 := by
  rcases Nat.lt_or_ge i t.length with h | h
  · rw [countSome, List.countP_set _ _ _ _ h]
    have hc : t.countP (fun x => x.isSome) = countSome t := rfl
    rw [hc]
    split
    · split <;> omega
    · split <;> omega
  · rw [List.set_eq_of_length_le h]
    omega

theorem exists_none_of_countSome_lt {t : List (Option (Nat × Nat))}
    (h : countSome t < t.length) : ∃ j, j < t.length ∧ tableGet t j = none := by
  induction t with
  | nil => simp [countSome] at h
  | cons a t' ih =>
    cases a with
    | none => exact ⟨0, by simp, rfl⟩
    | some e =>
      have h' : countSome t' < t'.length := by
        simpa [countSome, List.countP_cons] using h
      obtain ⟨j, hj, hg⟩ := ih h'
      exact ⟨j + 1, by simpa using hj, by simpa [tableGet] using hg⟩

theorem findFirst_eq_some {p : Nat → Bool} :
    ∀ {fuel d0 D : Nat}, findFirst p d0 fuel = some D →
      p D = true ∧ d0 ≤ D ∧ D < d0 + fuel ∧
        ∀ d, d0 ≤ d → d < D → p d = false := by
  intro fuel
  induction fuel with
  | zero => intro d0 D h; exact absurd h (by simp [findFirst])
  | succ k ih =>
    intro d0 D h
    rw [findFirst] at h
    by_cases hp : p d0
    · rw [if_pos hp] at h
      cases h
      exact ⟨hp, le_refl _, by omega, fun d h1 h2 => absurd h2 (by omega)⟩
    · rw [if_neg hp] at h
      obtain ⟨hD, hle, hlt, hmin⟩ := ih h
      rw [Bool.not_eq_true] at hp
      refine ⟨hD, by omega, by omega, fun d h1 h2 => ?_⟩
      rcases Nat.eq_or_lt_of_le h1 with rfl | h1'
      · exact hp
      · exact hmin d h1' h2

theorem findFirst_eq_none {p : Nat → Bool} :
    ∀ {fuel d0 : Nat}, findFirst p d0 fuel = none →
      ∀ d, d0 ≤ d → d < d0 + fuel → p d = false := by
  intro fuel
  induction fuel with
  | zero => intro d0 _ d h1 h2; omega
  | succ k ih =>
    intro d0 h d h1 h2
    rw [findFirst] at h
    by_cases hp : p d0
    · rw [if_pos hp] at h; cases h
    · rw [if_neg hp] at h
      rw [Bool.not_eq_true] at hp
      rcases Nat.eq_or_lt_of_le h1 with rfl | h1'
      · exact hp
      · exact ih h d h1' (by omega)

theorem le_nextPow2Aux (target : Nat) :
    ∀ fuel acc, target ≤ 2 ^ fuel * acc → target ≤ nextPow2Aux target fuel acc := by
  intro fuel
  induction fuel with
  | zero => intro acc h; simpa [nextPow2Aux] using h
  | succ k ih =>
    intro acc h
    rw [nextPow2Aux]
    split
    · assumption
    · apply ih
      have h2 : 2 ^ (k + 1) * acc = 2 ^ k * (acc * 2) := by ring
      rwa [h2] at h

theorem le_nextPow2 (target : Nat) : target ≤ nextPow2 target := by
  apply le_nextPow2Aux
  have := Nat.lt_two_pow target
  simpa using this.le

theorem lt_hslotsFor (count : Nat) : count < hslotsFor count := by
  rcases Nat.eq_zero_or_pos count with rfl | hc
  · simp [hslotsFor]
  · have h := le_nextPow2 (2 * count)
    have h2 : count < 2 * count := by omega
    exact lt_of_lt_of_le (lt_of_lt_of_le h2 h) (le_max_right 2 _)

theorem hslotsFor_pos (count : Nat) : 0 < hslotsFor count :=
  lt_of_lt_of_le (by norm_num) (le_max_left 2 _)

/-! ## Probe-sequence (visited cells) helpers -/

theorem untilNone_nil : untilNone [] = [] := rfl

theorem untilNone_cons_none (rest : List (Option (Nat × Nat))) :
    untilNone (none :: rest) = [] := rfl

theorem untilNone_cons_some (e : Nat × Nat) (rest : List (Option (Nat × Nat))) :
    untilNone (some e :: rest) = e :: untilNone rest := rfl

theorem visitedFrom_add (t : List (Option (Nat × Nat))) (s : Nat) :
    ∀ (a b d : Nat), visitedFrom t s d (a + b)
      = visitedFrom t s d a ++ visitedFrom t s (d + a) b := by
  intro a
  induction a with
  | zero => intro b d; simp [visitedFrom]
  | succ k ih =>
    intro b d
    have h1 : k + 1 + b = (k + b) + 1 := by omega
    rw [h1, visitedFrom, visitedFrom, List.cons_append, ih b (d + 1)]
    have h2 : d + 1 + k = d + (k + 1) := by omega
    rw [h2]

theorem visitedFrom_congr {t₁ t₂ : List (Option (Nat × Nat))} {s : Nat} :
    ∀ {fuel d : Nat},
      (∀ d', d ≤ d' → d' < d + fuel → probeRead t₁ s d' = probeRead t₂ s d') →
      visitedFrom t₁ s d fuel = visitedFrom t₂ s d fuel := by
  intro fuel
  induction fuel with
  | zero => intro d _; rfl
  | succ k ih =>
    intro d h
    rw [visitedFrom, visitedFrom, h d (le_refl d) (by omega),
      ih (fun d' h1 h2 => h d' (by omega) (by omega))]

theorem untilNone_append_of_isSome {A : List (Option (Nat × Nat))}
    (h : ∀ x ∈ A, x.isSome = true) (B : List (Option (Nat × Nat))) :
    untilNone (A ++ B) = A.filterMap id ++ untilNone B := by
  induction A with
  | nil => simp
  | cons a A' ih =>
    cases a with
    | none => exact absurd (h none (by simp)) (by simp)
    | some e =>
      rw [List.cons_append, untilNone_cons_some, List.filterMap_cons]
      simp only [id]
      rw [List.cons_append, ih (fun x hx => h x (by simp [hx]))]

theorem untilNone_eq_filterMap {A : List (Option (Nat × Nat))}
    (h : ∀ x ∈ A, x.isSome = true) : untilNone A = A.filterMap id := by
  have h2 := untilNone_append_of_isSome h []
  rw [List.append_nil] at h2
  rw [h2, untilNone_nil, List.append_nil]

theorem mem_untilNone_visitedFrom {t : List (Option (Nat × Nat))} {s : Nat} :
    ∀ {fuel d : Nat} {x : Nat × Nat}, x ∈ untilNone (visitedFrom t s d fuel) →
      ∃ d', d ≤ d' ∧ d' < d + fuel ∧ probeRead t s d' = some x := by
  intro fuel
  induction fuel with
  | zero => intro d x h; simp [visitedFrom, untilNone_nil] at h
  | succ k ih =>
    intro d x h
    rw [visitedFrom] at h
    cases hr : probeRead t s d with
    | none => rw [hr, untilNone_cons_none] at h; simp at h
    | some e =>
      rw [hr, untilNone_cons_some] at h
      rcases List.mem_cons.mp h with rfl | h'
      · exact ⟨d, le_refl d, by omega, hr⟩
      · obtain ⟨d', h1, h2, h3⟩ := ih h'
        exact ⟨d', by omega, by omega, h3⟩

theorem probeRead_set_ne {t : List (Option (Nat × Nat))} {i s d : Nat}
    (h : i ≠ (s + d) % t.length) (v : Option (Nat × Nat)) :
    probeRead (t.set i v) s d = probeRead t s d := by
  rw [probeRead, probeRead, List.length_set, tableGet_set_ne h]

theorem probeRead_set_eq {t : List (Option (Nat × Nat))} {s D : Nat}
    (hn : 0 < t.length) (v : Option (Nat × Nat)) :
    probeRead (t.set ((s + D) % t.length) v) s D = v := by
  rw [probeRead, List.length_set, tableGet_set_eq (Nat.mod_lt _ hn)]

theorem probeRead_nil (s d : Nat) : probeRead [] s d = none := rfl

theorem probeRead_set_isSome {t : List (Option (Nat × Nat))} {i s d : Nat}
    (e : Nat × Nat) (h : (probeRead t s d).isSome = true) :
    (probeRead (t.set i (some e)) s d).isSome = true := by
  by_cases hij : i = (s + d) % t.length
  · subst hij
    rcases Nat.eq_zero_or_pos t.length with h0 | hn
    · rw [List.length_eq_zero.mp h0] at h
      rw [probeRead_nil] at h
      simp at h
    · rw [probeRead_set_eq hn]
      rfl
  · rw [probeRead_set_ne hij]
    exact h

/-! ## Linear-probing placement: insertion step -/

theorem mem_visitedFrom {t : List (Option (Nat × Nat))} {s : Nat} :
    ∀ {fuel d : Nat} {x : Option (Nat × Nat)}, x ∈ visitedFrom t s d fuel →
      ∃ d', d ≤ d' ∧ d' < d + fuel ∧ probeRead t s d' = x := by
  intro fuel
  induction fuel with
  | zero => intro d x h; simp [visitedFrom] at h
  | succ k ih =>
    intro d x h
    rw [visitedFrom] at h
    rcases List.mem_cons.mp h with rfl | h'
    · exact ⟨d, le_refl d, by omega, rfl⟩
    · obtain ⟨d', h1, h2, h3⟩ := ih h'
      exact ⟨d', by omega, by omega, h3⟩

theorem tableInsert_eq_set {t : List (Option (Nat × Nat))} {e : Nat × Nat}
    {D : Nat}
    (hF : findFirst (fun d => (probeRead t (startOfHash e.1 t.length) d).isNone)
      0 t.length = some D) :
    tableInsert t e
      = t.set ((startOfHash e.1 t.length + D) % t.length) (some e) := by
  rw [tableInsert]
  simp only [hF]

theorem length_tableInsert (t : List (Option (Nat × Nat))) (e : Nat × Nat) :
    (tableInsert t e).length = t.length := by
  rw [tableInsert]
  cases hF : findFirst (fun d => (probeRead t (startOfHash e.1 t.length) d).isNone)
      0 t.length with
  | some d => simp only [hF, List.length_set]
  | none => simp only [hF]

theorem countSome_tableInsert_le (t : List (Option (Nat × Nat))) (e : Nat × Nat) :
    countSome (tableInsert t e) ≤ countSome t + 1 := by
  rw [tableInsert]
  cases hF : findFirst (fun d => (probeRead t (startOfHash e.1 t.length) d).isNone)
      0 t.length with
  | some d => simp only [hF]; exact countSome_set_some_le t _ e
  | none => simp only [hF]; omega

theorem length_visitedFrom (t : List (Option (Nat × Nat))) (s : Nat) :
    ∀ fuel d, (visitedFrom t s d fuel).length = fuel := by
  intro fuel
  induction fuel with
  | zero => intro d; rfl
  | succ k ih => intro d; rw [visitedFrom, List.length_cons, ih]

theorem tableInsert_spec (t : List (Option (Nat × Nat))) (e : Nat × Nat)
    (hn : 0 < t.length) (hcount : countSome t < t.length) (hhole : NoHole t) :
    NoHole (tableInsert t e) ∧
    ∀ s, scanSameStart (tableInsert t e) s
        = scanSameStart t s
          ++ (if startOfHash e.1 t.length == s then [e] else []) := by
  obtain ⟨j₀, hj₀n, hj₀⟩ := exists_none_of_countSome_lt hcount
  -- the insertion target: the first empty cell from the entry's start
  cases hF : findFirst
      (fun d => (probeRead t (startOfHash e.1 t.length) d).isNone) 0 t.length with
  | none =>
    obtain ⟨d₀, hd₀n, hd₀⟩ := probe_surj (startOfHash e.1 t.length) hj₀n
    have h1 := findFirst_eq_none hF d₀ (by omega) (by omega)
    rw [probeRead, hd₀, hj₀] at h1
    simp at h1
  | some D =>
    obtain ⟨hD_none, _, hD_lt, hD_min⟩ := findFirst_eq_some hF
    have hT' := tableInsert_eq_set hF
    have hj'n : (startOfHash e.1 t.length + D) % t.length < t.length :=
      Nat.mod_lt _ hn
    have fact1 : tableGet t ((startOfHash e.1 t.length + D) % t.length) = none := by
      have h2 := hD_none
      rw [probeRead] at h2
      exact Option.isNone_iff_eq_none.mp h2
    have occ_below : ∀ d, d < D →
        (probeRead t (startOfHash e.1 t.length) d).isSome = true := by
      intro d hd
      have h2 := hD_min d (Nat.zero_le d) hd
      cases hv : probeRead t (startOfHash e.1 t.length) d with
      | none => rw [hv] at h2; simp at h2
      | some x => rfl
    constructor
    · -- NoHole is preserved and holds for the new entry
      rw [hT']
      intro j e₂ hjlen hje₂
      simp only [List.length_set] at hjlen ⊢
      by_cases hjj : j = (startOfHash e.1 t.length + D) % t.length
      · subst hjj
        rw [tableGet_set_eq hj'n] at hje₂
        cases hje₂
        refine ⟨D, by omega, rfl, fun d hd => ?_⟩
        exact probeRead_set_isSome e (occ_below d hd)
      · rw [tableGet_set_ne (fun h2 => hjj h2.symm)] at hje₂
        obtain ⟨D₂, hD₂n, hD₂j, hD₂occ⟩ := hhole j e₂ hjlen hje₂
        exact ⟨D₂, hD₂n, hD₂j, fun d hd =>
          probeRead_set_isSome e (hD₂occ d hd)⟩
    · -- the same-start scan gains exactly the new entry
      intro s
      obtain ⟨d₁, hd₁n, hd₁⟩ := probe_surj s hj₀n
      cases hL : findFirst (fun d => (probeRead t s d).isNone) 0 t.length with
      | none =>
        have h1 := findFirst_eq_none hL d₁ (by omega) (by omega)
        rw [probeRead, hd₁, hj₀] at h1
        simp at h1
      | some L =>
        obtain ⟨hL_none, _, hL_lt, hL_min⟩ := findFirst_eq_some hL
        have hLn : L < t.length := by omega
        obtain ⟨dp, hdpn, hdpj⟩ := probe_surj s hj'n
        have occ_belowL : ∀ d, d < L → (probeRead t s d).isSome = true := by
          intro d hd
          have h2 := hL_min d (Nat.zero_le d) hd
          cases hv : probeRead t s d with
          | none => rw [hv] at h2; simp at h2
          | some x => rfl
        have hLdp : L ≤ dp := by
          by_contra h2
          push_neg at h2
          have h3 := occ_belowL dp h2
          rw [probeRead, hdpj, fact1] at h3
          simp at h3
        have hfuel : t.length - L = (t.length - L - 1) + 1 := by omega
        -- scanSlot t s stops exactly at distance L
        have split_t : visitedFrom t s 0 t.length
            = visitedFrom t s 0 L ++ visitedFrom t s L (t.length - L) := by
          have h2 : t.length = L + (t.length - L) := by omega
          calc visitedFrom t s 0 t.length
              = visitedFrom t s 0 (L + (t.length - L)) := by rw [← h2]
            _ = visitedFrom t s 0 L ++ visitedFrom t s (0 + L) (t.length - L) :=
                visitedFrom_add t s L (t.length - L) 0
            _ = visitedFrom t s 0 L ++ visitedFrom t s L (t.length - L) := by
                rw [Nat.zero_add]
        have vis_some : ∀ x ∈ visitedFrom t s 0 L, x.isSome = true := by
          intro x hx
          obtain ⟨d', h1, h2, h3⟩ := mem_visitedFrom hx
          rw [← h3]
          exact occ_belowL d' (by omega)
        have tail_none : visitedFrom t s L (t.length - L)
            = none :: visitedFrom t s (L + 1) (t.length - L - 1) := by
          conv_lhs => rw [hfuel]
          rw [visitedFrom, Option.isNone_iff_eq_none.mp hL_none]
        have scan_t : scanSlot t s = (visitedFrom t s 0 L).filterMap id := by
          rw [scanSlot, split_t, untilNone_append_of_isSome vis_some, tail_none,
            untilNone_cons_none, List.append_nil]
        have split_T' : visitedFrom (tableInsert t e) s 0 t.length
            = visitedFrom (tableInsert t e) s 0 L
              ++ visitedFrom (tableInsert t e) s L (t.length - L) := by
          have h2 : t.length = L + (t.length - L) := by omega
          calc visitedFrom (tableInsert t e) s 0 t.length
              = visitedFrom (tableInsert t e) s 0 (L + (t.length - L)) := by
                rw [← h2]
            _ = visitedFrom (tableInsert t e) s 0 L
                ++ visitedFrom (tableInsert t e) s (0 + L) (t.length - L) :=
                visitedFrom_add _ s L (t.length - L) 0
            _ = _ := by rw [Nat.zero_add]
        have vis_pre : visitedFrom (tableInsert t e) s 0 L
            = visitedFrom t s 0 L := by
          rw [hT']
          apply visitedFrom_congr
          intro d' h1 h2
          apply probeRead_set_ne
          intro hcontra
          have h3 : (s + dp) % t.length = (s + d') % t.length := by
            rw [hdpj, hcontra]
          have h4 := probe_inj hdpn (by omega) h3
          omega
        rcases Nat.eq_or_lt_of_le hLdp with heq | hlt
        · -- the new entry lands exactly at the scan's first empty cell
          have cell_L : probeRead (tableInsert t e) s L = some e := by
            rw [hT', probeRead, List.length_set, heq, hdpj,
              tableGet_set_eq hj'n]
          have tail_T' : visitedFrom (tableInsert t e) s L (t.length - L)
              = some e
                :: visitedFrom (tableInsert t e) s (L + 1) (t.length - L - 1) := by
            conv_lhs => rw [hfuel]
            rw [visitedFrom, cell_L]
          have scan_T' : scanSlot (tableInsert t e) s
              = (visitedFrom t s 0 L).filterMap id
                ++ e :: untilNone
                    (visitedFrom (tableInsert t e) s (L + 1) (t.length - L - 1)) := by
            rw [scanSlot, length_tableInsert, split_T', vis_pre,
              untilNone_append_of_isSome vis_some, tail_T', untilNone_cons_some]
          have tail_filter : (untilNone
              (visitedFrom (tableInsert t e) s (L + 1) (t.length - L - 1))).filter
                (fun x => startOfHash x.1 t.length == s) = [] := by
            rw [List.filter_eq_nil_iff]
            intro x hx
            obtain ⟨d'', h1, h2, h3⟩ := mem_untilNone_visitedFrom hx
            have h2' : d'' < t.length := by omega
            have hne : (startOfHash e.1 t.length + D) % t.length
                ≠ (s + d'') % t.length := by
              intro hcontra
              have h4 : (s + dp) % t.length = (s + d'') % t.length := by
                rw [hdpj, hcontra]
              have h5 := probe_inj hdpn h2' h4
              omega
            rw [hT', probeRead_set_ne hne] at h3
            intro hbeq
            have hxs : startOfHash x.1 t.length = s := by simpa using hbeq
            have h3' : tableGet t ((s + d'') % t.length) = some x := by
              rw [probeRead] at h3
              exact h3
            obtain ⟨D₃, hD₃n, hD₃eq, hD₃occ⟩ :=
              hhole ((s + d'') % t.length) x (Nat.mod_lt _ hn) h3'
            rw [hxs] at hD₃eq hD₃occ
            have hD₃d : D₃ = d'' := probe_inj hD₃n h2' hD₃eq
            have h6 := hD₃occ L (by omega)
            rw [Option.isNone_iff_eq_none.mp hL_none] at h6
            simp at h6
          rw [scanSameStart, scanSameStart, length_tableInsert, scan_T', scan_t,
            List.filter_append, List.filter_cons, tail_filter]
        · -- the new entry lands past the scan's first empty cell: scan unchanged
          have cell_L : probeRead (tableInsert t e) s L = none := by
            rw [hT']
            rw [probeRead_set_ne ?hne]
            · exact Option.isNone_iff_eq_none.mp hL_none
            case hne =>
              intro hcontra
              have h3 : (s + dp) % t.length = (s + L) % t.length := by
                rw [hdpj, hcontra]
              have h4 := probe_inj hdpn hLn h3
              omega
          have tail_T' : visitedFrom (tableInsert t e) s L (t.length - L)
              = none
                :: visitedFrom (tableInsert t e) s (L + 1) (t.length - L - 1) := by
            conv_lhs => rw [hfuel]
            rw [visitedFrom, cell_L]
          have scan_T' : scanSlot (tableInsert t e) s
              = (visitedFrom t s 0 L).filterMap id := by
            rw [scanSlot, length_tableInsert, split_T', vis_pre,
              untilNone_append_of_isSome vis_some, tail_T', untilNone_cons_none,
              List.append_nil]
          have hse : startOfHash e.1 t.length ≠ s := by
            intro hse
            rw [hse] at hD_none hD_min hdpj
            have hDL : D = L := by
              have hLD : L ≤ D := by
                by_contra h2
                push_neg at h2
                have h3 := occ_belowL D h2
                rw [Option.isNone_iff_eq_none.mp hD_none] at h3
                simp at h3
              have hDL' : D ≤ L := by
                by_contra h2
                push_neg at h2
                have h3 := hD_min L (Nat.zero_le L) h2
                rw [Option.isNone_iff_eq_none.mp hL_none] at h3
                simp at h3
              omega
            rw [hDL] at hdpj
            have h6 := probe_inj hdpn hLn hdpj
            omega
          have hbe : (startOfHash e.1 t.length == s) = false := by
            simpa using hse
          rw [scanSameStart, scanSameStart, length_tableInsert, scan_T', scan_t,
            hbe]
          simp

/-! ## Linear-probing placement: whole-table build invariant -/

theorem scanSameStart_replicate (n s : Nat) :
    scanSameStart (List.replicate n (none : Option (Nat × Nat))) s = [] := by
  have h : ∀ m d, untilNone
      (visitedFrom (List.replicate n (none : Option (Nat × Nat))) s d m) = [] := by
    intro m
    cases m with
    | zero => intro d; rfl
    | succ k =>
      intro d
      rw [visitedFrom, probeRead, tableGet_replicate, untilNone_cons_none]
  rw [scanSameStart, scanSlot, h, List.filter_nil]

theorem buildFold_inv (n : Nat) :
    ∀ (L : List (Nat × Nat)), L.length < n →
      (L.foldl tableInsert (List.replicate n none)).length = n ∧
      NoHole (L.foldl tableInsert (List.replicate n none)) ∧
      countSome (L.foldl tableInsert (List.replicate n none)) ≤ L.length ∧
      ∀ s, scanSameStart (L.foldl tableInsert (List.replicate n none)) s
          = L.filter (fun x => startOfHash x.1 n == s) := by
  intro L
  induction L using List.reverseRecOn with
  | nil =>
    intro _
    refine ⟨by simp, ?_, ?_, ?_⟩
    · intro j e hj hje
      rw [List.foldl_nil, tableGet_replicate] at hje
      exact absurd hje (by simp)
    · rw [List.foldl_nil, countSome_replicate]
      simp
    · intro s
      rw [List.foldl_nil, scanSameStart_replicate, List.filter_nil]
  | append_singleton L e ih =>
    intro hlen
    have hlen1 : L.length + 1 < n := by simpa using hlen
    have hlen' : L.length < n := by omega
    obtain ⟨ihlen, ihhole, ihcount, ihscan⟩ := ih hlen'
    have hn0 : 0 < n := by omega
    have hT : (L ++ [e]).foldl tableInsert (List.replicate n none)
        = tableInsert (L.foldl tableInsert (List.replicate n none)) e := by
      rw [List.foldl_append, List.foldl_cons, List.foldl_nil]
    have hcount' : countSome (L.foldl tableInsert (List.replicate n none))
        < (L.foldl tableInsert (List.replicate n none)).length := by
      rw [ihlen]
      omega
    obtain ⟨hole', scan'⟩ := tableInsert_spec _ e
      (by rw [ihlen]; exact hn0) hcount' ihhole
    refine ⟨?_, ?_, ?_, ?_⟩
    · rw [hT, length_tableInsert, ihlen]
    · rw [hT]; exact hole'
    · rw [hT]
      calc countSome (tableInsert (L.foldl tableInsert (List.replicate n none)) e)
          ≤ countSome (L.foldl tableInsert (List.replicate n none)) + 1 :=
            countSome_tableInsert_le _ e
        _ ≤ L.length + 1 := by omega
        _ = (L ++ [e]).length := by simp
    · intro s
      rw [hT, scan' s, ihscan s, List.filter_append, ihlen]
      congr 1
      rw [List.filter_cons, List.filter_nil]

theorem buildTable_length (L : List (Nat × Nat)) :
    (buildTable L).length = hslotsFor L.length :=
  (buildFold_inv (hslotsFor L.length) L (lt_hslotsFor _)).1

theorem buildTable_pos (L : List (Nat × Nat)) : 0 < (buildTable L).length := by
  rw [buildTable_length]
  exact hslotsFor_pos _

theorem scanSameStart_buildTable (L : List (Nat × Nat)) (s : Nat) :
    scanSameStart (buildTable L) s
      = L.filter (fun x => startOfHash x.1 (hslotsFor L.length) == s) :=
  (buildFold_inv (hslotsFor L.length) L (lt_hslotsFor _)).2.2.2 s

/-! ## Bridging the cursor state machine to the pure probe scan -/

theorem pureScan_eq_filter (f : McdbFile) (tk : List Nat) (khash : Nat)
    (t : List (Option (Nat × Nat))) (s : Nat) :
    ∀ fuel d, pureScan f tk khash t s d fuel
      = ((untilNone (visitedFrom t s d fuel)).filter
          (fun e => (e.1 == khash) && (recordKey f e.2 == tk))).map
          (fun e => recordVal f e.2) := by
  intro fuel
  induction fuel with
  | zero => intro d; rfl
  | succ k ih =>
    intro d
    rw [visitedFrom]
    cases hr : probeRead t s d with
    | none =>
      simp only [pureScan, hr, untilNone_cons_none]
      rfl
    | some e =>
      simp only [pureScan, hr, untilNone_cons_some, List.filter_cons]
      by_cases hc : ((e.1 == khash) && (recordKey f e.2 == tk)) = true
      · rw [if_pos hc, if_pos hc, List.map_cons, ih]
      · rw [if_neg hc, if_neg hc, ih]

theorem probeLoop_stuck (f : McdbFile) (tk : List Nat) (m : Mcdb) :
    probeLoop f tk 0 m = (false, m) := rfl

theorem probeLoop_fields (f : McdbFile) (tk : List Nat) :
    ∀ fuel m, ((probeLoop f tk fuel m).2).hslots = m.hslots ∧
      m.loop ≤ ((probeLoop f tk fuel m).2).loop ∧
      ((probeLoop f tk fuel m).2).loop ≤ m.loop + fuel := by
  intro fuel
  induction fuel with
  | zero =>
    intro m
    rw [probeLoop_stuck]
    exact ⟨rfl, le_refl _, Nat.le_add_right _ _⟩
  | succ k ih =>
    intro m
    cases hv : tableGet (f.tables.getD m.hpos []) m.kpos with
    | none =>
      have h : probeLoop f tk (k + 1) m = (false, m) := by
        simp only [probeLoop, hv]
      rw [h]
      exact ⟨rfl, le_refl _, Nat.le_add_right _ _⟩
    | some e =>
      by_cases hc : ((e.1 == m.khash) && (recordKey f e.2 == tk)) = true
      · have h : probeLoop f tk (k + 1) m
            = (true,
              { m with
                kpos := (m.kpos + 1) % m.hslots
                loop := m.loop + 1
                dpos := e.2
                dlen := (recordVal f e.2).length }) := by
          simp only [probeLoop, hv, if_pos hc]
        rw [h]
        refine ⟨rfl, ?_, ?_⟩
        · exact Nat.le_succ _
        · exact Nat.add_le_add_left (Nat.succ_le_succ (Nat.zero_le k)) m.loop
      · have h : probeLoop f tk (k + 1) m
            = probeLoop f tk k
              { m with kpos := (m.kpos + 1) % m.hslots, loop := m.loop + 1 } := by
          simp only [probeLoop, hv, if_neg hc]
        rw [h]
        obtain ⟨h1, h2, h3⟩ := ih
          { m with kpos := (m.kpos + 1) % m.hslots, loop := m.loop + 1 }
        dsimp only at h1 h2 h3
        exact ⟨h1, by omega, by omega⟩

theorem probeLoop_spec (f : McdbFile) (tk : List Nat) :
    ∀ fuel d m r m', fuel = (bucketOf f tk).length - d →
      CursorOk f tk m d → d ≤ (bucketOf f tk).length →
      0 < (bucketOf f tk).length →
      probeLoop f tk fuel m = (r, m') →
      (r = false →
        pureScan f tk (hashDjb tk) (bucketOf f tk) (bucketStart f tk) d fuel
          = []) ∧
      (r = true →
        d < m'.loop ∧ m'.loop ≤ (bucketOf f tk).length ∧
        CursorOk f tk m' m'.loop ∧
        pureScan f tk (hashDjb tk) (bucketOf f tk) (bucketStart f tk) d fuel
          = mcdb_dataptr f m'
            :: pureScan f tk (hashDjb tk) (bucketOf f tk) (bucketStart f tk)
              m'.loop ((bucketOf f tk).length - m'.loop)) := by
  intro fuel
  induction fuel with
  | zero =>
    intro d m r m' hfe hok hdn hn hPL
    rw [probeLoop_stuck, Prod.mk.injEq] at hPL
    obtain ⟨hr, hm⟩ := hPL
    constructor
    · intro _; rfl
    · intro htrue
      rw [← hr] at htrue
      exact Bool.noConfusion htrue
  | succ k ih =>
    intro d m r m' hfe hok hdn hn hPL
    obtain ⟨hloop, hkh, hhp, hhs, hkp⟩ := hok
    have hdlt : d < (bucketOf f tk).length := by omega
    have hscrut : tableGet (f.tables.getD m.hpos []) m.kpos
        = probeRead (bucketOf f tk) (bucketStart f tk) d := by
      rw [hhp, hkp]
      rfl
    cases hv : probeRead (bucketOf f tk) (bucketStart f tk) d with
    | none =>
      have hPL' : (false, m) = (r, m') := by
        rw [← hPL]
        simp only [probeLoop, hscrut, hv]
      rw [Prod.mk.injEq] at hPL'
      obtain ⟨hr, hm⟩ := hPL'
      constructor
      · intro _
        simp only [pureScan, hv]
      · intro htrue
        rw [← hr] at htrue
        exact Bool.noConfusion htrue
    | some e =>
      by_cases hc : ((e.1 == hashDjb tk) && (recordKey f e.2 == tk)) = true
      · have hPL' : (true,
            { m with
              kpos := (m.kpos + 1) % m.hslots
              loop := m.loop + 1
              dpos := e.2
              dlen := (recordVal f e.2).length }) = (r, m') := by
          rw [← hPL]
          simp only [probeLoop, hscrut, hv, hkh, if_pos hc]
        rw [Prod.mk.injEq] at hPL'
        obtain ⟨hr, hm⟩ := hPL'
        constructor
        · intro hfalse
          rw [← hr] at hfalse
          exact Bool.noConfusion hfalse
        · intro _
          rw [← hm]
          dsimp only
          rw [hloop]
          refine ⟨by omega, by omega, ⟨rfl, hkh, hhp, hhs, ?_⟩, ?_⟩
          · rw [hkp, hhs, Nat.mod_add_mod]
            congr 1
          · simp only [pureScan, hv, if_pos hc]
            have hk : k = (bucketOf f tk).length - (d + 1) := by omega
            rw [hk]
            rfl
      · have hPL' : probeLoop f tk k
            { m with kpos := (m.kpos + 1) % m.hslots, loop := m.loop + 1 }
            = (r, m') := by
          rw [← hPL]
          simp only [probeLoop, hscrut, hv, hkh, if_neg hc]
        have hok' : CursorOk f tk
            { m with kpos := (m.kpos + 1) % m.hslots, loop := m.loop + 1 }
            (d + 1) := by
          refine ⟨by dsimp only; omega, hkh, hhp, hhs, ?_⟩
          dsimp only
          rw [hkp, hhs, Nat.mod_add_mod]
          congr 1
        obtain ⟨ihf, iht⟩ := ih (d + 1) _ r m' (by omega) hok' (by omega) hn hPL'
        constructor
        · intro hfalse
          simp only [pureScan, hv, if_neg hc]
          exact ihf hfalse
        · intro htrue
          obtain ⟨h1, h2, h3, h4⟩ := iht htrue
          refine ⟨by omega, h2, h3, ?_⟩
          simp only [pureScan, hv, if_neg hc]
          exact h4

theorem findIter_spec (f : McdbFile) (key : List Nat) (tag : Nat) :
    ∀ fuel d m, CursorOk f (taggedKey tag key) m d → 1 ≤ d →
      d ≤ (bucketOf f (taggedKey tag key)).length →
      0 < (bucketOf f (taggedKey tag key)).length →
      (bucketOf f (taggedKey tag key)).length - d + 1 ≤ fuel →
      findIter f key tag fuel m
        = pureScan f (taggedKey tag key) (hashDjb (taggedKey tag key))
            (bucketOf f (taggedKey tag key)) (bucketStart f (taggedKey tag key))
            d ((bucketOf f (taggedKey tag key)).length - d) := by
  intro fuel
  induction fuel with
  | zero => intro d m _ _ _ _ hf; omega
  | succ k ih =>
    intro d m hok h1d hdn hn hf
    obtain ⟨hloop, hkh, hhp, hhs, hkp⟩ := hok
    have hnext : mcdb_findtagnext f key tag m
        = probeLoop f (taggedKey tag key)
            ((bucketOf f (taggedKey tag key)).length - d) m := by
      simp only [mcdb_findtagnext]
      rw [if_neg (by omega : ¬ m.loop = 0), hhs, hloop]
    rw [findIter, hnext]
    cases hPL : probeLoop f (taggedKey tag key)
        ((bucketOf f (taggedKey tag key)).length - d) m with
    | mk r m' =>
      obtain ⟨hfF, hfT⟩ := probeLoop_spec f (taggedKey tag key) _ d m r m' rfl
        ⟨hloop, hkh, hhp, hhs, hkp⟩ hdn hn hPL
      cases r with
      | false =>
        rw [hfF rfl]
        rfl
      | true =>
        obtain ⟨h1, h2, h3, h4⟩ := hfT rfl
        rw [h4]
        show mcdb_dataptr f m' :: findIter f key tag k m' = _
        congr 1
        exact ih m'.loop m' h3 (by omega) h2 hn (by omega)

theorem mcdb_findall_tagged_eq_pureMatches (f : McdbFile) (tag : Nat)
    (key : List Nat) :
    mcdb_findall_tagged f tag key = pureMatches f (taggedKey tag key) := by
  rw [mcdb_findall_tagged]
  show findIter f key tag ((bucketOf f (taggedKey tag key)).length + 1)
      { Mcdb.start with loop := 0 } = pureMatches f (taggedKey tag key)
  rcases Nat.eq_zero_or_pos (bucketOf f (taggedKey tag key)).length with hz | hn
  · rw [findIter]
    have hnext : mcdb_findtagnext f key tag { Mcdb.start with loop := 0 }
        = (false, { Mcdb.start with loop := 0 }) := by
      simp only [mcdb_findtagnext]
      rw [if_pos trivial]
      rw [show f.tables.getD
          (slotOfHash (hashDjb (taggedKey tag key))) []
          = bucketOf f (taggedKey tag key) from rfl]
      rw [if_pos hz]
    rw [hnext]
    show [] = pureMatches f (taggedKey tag key)
    rw [pureMatches, hz]
    rfl
  · rw [findIter]
    have hnext : mcdb_findtagnext f key tag { Mcdb.start with loop := 0 }
        = probeLoop f (taggedKey tag key) (bucketOf f (taggedKey tag key)).length
          { Mcdb.start with
            khash := hashDjb (taggedKey tag key)
            hslots := (bucketOf f (taggedKey tag key)).length
            hpos := slotOfHash (hashDjb (taggedKey tag key))
            kpos := bucketStart f (taggedKey tag key)
            loop := 0 } := by
      simp only [mcdb_findtagnext]
      rw [if_pos trivial]
      rw [show f.tables.getD
          (slotOfHash (hashDjb (taggedKey tag key))) []
          = bucketOf f (taggedKey tag key) from rfl]
      rw [if_neg (by omega : ¬ (bucketOf f (taggedKey tag key)).length = 0)]
      rfl
    rw [hnext]
    have hok1 : CursorOk f (taggedKey tag key)
        { Mcdb.start with
          khash := hashDjb (taggedKey tag key)
          hslots := (bucketOf f (taggedKey tag key)).length
          hpos := slotOfHash (hashDjb (taggedKey tag key))
          kpos := bucketStart f (taggedKey tag key)
          loop := 0 } 0 := by
      refine ⟨rfl, rfl, rfl, rfl, ?_⟩
      dsimp only
      rw [Nat.add_zero, Nat.mod_eq_of_lt]
      exact Nat.mod_lt _ hn
    cases hPL : probeLoop f (taggedKey tag key)
        (bucketOf f (taggedKey tag key)).length
        { Mcdb.start with
          khash := hashDjb (taggedKey tag key)
          hslots := (bucketOf f (taggedKey tag key)).length
          hpos := slotOfHash (hashDjb (taggedKey tag key))
          kpos := bucketStart f (taggedKey tag key)
          loop := 0 } with
    | mk r m' =>
      obtain ⟨hfF, hfT⟩ := probeLoop_spec f (taggedKey tag key) _ 0 _ r m'
        (by omega) hok1 (by omega) hn hPL
      cases r with
      | false =>
        rw [pureMatches, hfF rfl]
        rfl
      | true =>
        obtain ⟨h1, h2, h3, h4⟩ := hfT rfl
        rw [pureMatches, h4]
        show mcdb_dataptr f m'
            :: findIter f key tag (bucketOf f (taggedKey tag key)).length m' = _
        congr 1
        exact findIter_spec f key tag _ m'.loop m' h3 (by omega) h2 hn (by omega)

/-! ## From the built file down to the input pairs -/

theorem getD_map_range {α : Type} (k : Nat) (g : Nat → α) (b : Nat) (hb : b < k)
    (dflt : α) : ((List.range k).map g).getD b dflt = g b := by
  have hlen : b < ((List.range k).map g).length := by
    rw [List.length_map, List.length_range]
    exact hb
  rw [List.getD_eq_getElem _ _ hlen, List.getElem_map, List.getElem_range]

theorem bucketOf_make (pairs : List (List Nat × List Nat)) (tk : List Nat) :
    bucketOf (mcdb_make_finish ⟨pairs⟩) tk
      = buildTable (bucketEntriesFrom (slotOfHash (hashDjb tk)) 0 pairs) := by
  rw [bucketOf]
  show ((List.range 256).map
      (fun s => buildTable (bucketEntriesFrom s 0 pairs))).getD
      (slotOfHash (hashDjb tk)) [] = _
  exact getD_map_range 256 _ _ (Nat.mod_lt _ (by norm_num)) []

theorem filter_filter_of_imp {α : Type} (p q : α → Bool) (l : List α)
    (h : ∀ a, q a = true → p a = true) :
    (l.filter p).filter q = l.filter q := by
  rw [List.filter_filter]
  apply List.filter_congr
  intro x _
  by_cases hq : q x = true
  · rw [hq, h x hq, Bool.and_self]
  · have hq' : q x = false := by
      cases hv : q x with
      | false => rfl
      | true => exact absurd hv hq
    rw [hq', Bool.false_and]

theorem pureMatches_make (pairs : List (List Nat × List Nat)) (tk : List Nat) :
    pureMatches (mcdb_make_finish ⟨pairs⟩) tk
      = ((bucketEntriesFrom (slotOfHash (hashDjb tk)) 0 pairs).filter
          (fun e => (e.1 == hashDjb tk)
            && (recordKey (mcdb_make_finish ⟨pairs⟩) e.2 == tk))).map
          (fun e => recordVal (mcdb_make_finish ⟨pairs⟩) e.2) := by
  set f := mcdb_make_finish ⟨pairs⟩ with hf
  set L := bucketEntriesFrom (slotOfHash (hashDjb tk)) 0 pairs with hL
  have hbucket : bucketOf f tk = buildTable L := bucketOf_make pairs tk
  rw [pureMatches, pureScan_eq_filter]
  rw [show untilNone (visitedFrom (bucketOf f tk) (bucketStart f tk) 0
      (bucketOf f tk).length) = scanSlot (bucketOf f tk) (bucketStart f tk)
      from rfl]
  have himp : ∀ e : Nat × Nat,
      ((e.1 == hashDjb tk) && (recordKey f e.2 == tk)) = true →
      (startOfHash e.1 (bucketOf f tk).length == bucketStart f tk) = true := by
    intro e he
    simp only [Bool.and_eq_true, beq_iff_eq] at he
    rw [he.1, bucketStart]
    simp
  have hstep1 : (scanSlot (bucketOf f tk) (bucketStart f tk)).filter
        (fun e => (e.1 == hashDjb tk) && (recordKey f e.2 == tk))
      = (scanSameStart (bucketOf f tk) (bucketStart f tk)).filter
        (fun e => (e.1 == hashDjb tk) && (recordKey f e.2 == tk)) := by
    rw [scanSameStart]
    exact (filter_filter_of_imp _ _ _ himp).symm
  rw [hstep1, hbucket, scanSameStart_buildTable]
  have himp2 : ∀ e : Nat × Nat,
      ((e.1 == hashDjb tk) && (recordKey f e.2 == tk)) = true →
      (startOfHash e.1 (hslotsFor L.length) == bucketStart f tk) = true := by
    intro e he
    simp only [Bool.and_eq_true, beq_iff_eq] at he
    rw [he.1, bucketStart, hbucket, buildTable_length]
    simp
  rw [filter_filter_of_imp _ _ _ himp2]

theorem bucketEntries_filter_map (tk : List Nat) (f : McdbFile) :
    ∀ (pairs : List (List Nat × List Nat)) (i : Nat),
      (∀ d, d < pairs.length →
        f.records.getD (i + d) ([], []) = pairs.getD d ([], [])) →
      ((bucketEntriesFrom (slotOfHash (hashDjb tk)) i pairs).filter
          (fun e => (e.1 == hashDjb tk) && (recordKey f e.2 == tk))).map
          (fun e => recordVal f e.2)
        = (pairs.filter (fun p => p.1 == tk)).map (fun p => p.2) := by
  intro pairs
  induction pairs with
  | nil => intro i _; rfl
  | cons p ps ih =>
    intro i hrec
    have hp0 : f.records.getD i ([], []) = p := by
      have h0 := hrec 0 (by simp)
      simpa using h0
    have hrec' : ∀ d, d < ps.length →
        f.records.getD (i + 1 + d) ([], []) = ps.getD d ([], []) := by
      intro d hd
      have h1 := hrec (d + 1) (by simp; omega)
      rw [show i + (d + 1) = i + 1 + d from by omega] at h1
      rw [h1, List.getD_cons_succ]
    have hkeyrec : recordKey f i = p.1 := by
      rw [recordKey, hp0]
    have hvalrec : recordVal f i = p.2 := by
      rw [recordVal, hp0]
    rw [bucketEntriesFrom]
    conv_rhs => rw [List.filter_cons]
    by_cases hkey : (p.1 == tk) = true
    · have hkeq : p.1 = tk := by simpa using hkey
      have hslot : slotOfHash (hashDjb p.1) = slotOfHash (hashDjb tk) := by
        rw [hkeq]
      rw [if_pos hslot, List.filter_cons]
      have hmc : ((((hashDjb p.1, i) : Nat × Nat).1 == hashDjb tk)
          && (recordKey f ((hashDjb p.1, i) : Nat × Nat).2 == tk)) = true := by
        dsimp only
        rw [hkeyrec, hkeq]
        simp
      rw [if_pos hmc, if_pos hkey, List.map_cons, List.map_cons,
        ih (i + 1) hrec']
      dsimp only
      rw [hvalrec]
    · have hkf : (p.1 == tk) = false := by
        cases hv : (p.1 == tk) with
        | false => rfl
        | true => exact absurd hv hkey
      rw [if_neg hkey]
      by_cases hslot : slotOfHash (hashDjb p.1) = slotOfHash (hashDjb tk)
      · rw [if_pos hslot, List.filter_cons]
        have hmc : ((((hashDjb p.1, i) : Nat × Nat).1 == hashDjb tk)
            && (recordKey f ((hashDjb p.1, i) : Nat × Nat).2 == tk)) = false := by
          dsimp only
          rw [hkeyrec, hkf, Bool.and_false]
        rw [if_neg (by simp [hmc])]
        exact ih (i + 1) hrec'
      · rw [if_neg hslot]
        exact ih (i + 1) hrec'

theorem findall_tagged_make (pairs : List (List Nat × List Nat)) (tag : Nat)
    (key : List Nat) :
    mcdb_findall_tagged (mcdb_make_finish ⟨pairs⟩) tag key
      = (pairs.filter (fun p => p.1 == taggedKey tag key)).map (fun p => p.2) := by
  rw [mcdb_findall_tagged_eq_pureMatches, pureMatches_make]
  apply bucketEntries_filter_map (taggedKey tag key) _ pairs 0
  intro d hd
  rw [Nat.zero_add]
  rfl

/-! ## Reset semantics of find_start -/

theorem taggedKey_zero (key : List Nat) : taggedKey 0 key = key := by
  rw [taggedKey, if_pos rfl]

theorem probeLoop_congr (f : McdbFile) (tk : List Nat) :
    ∀ fuel (m₁ m₂ : Mcdb), m₁.loop = m₂.loop → m₁.hslots = m₂.hslots →
      m₁.kpos = m₂.kpos → m₁.hpos = m₂.hpos → m₁.khash = m₂.khash →
      (probeLoop f tk fuel m₁).1 = (probeLoop f tk fuel m₂).1 ∧
      ((probeLoop f tk fuel m₁).1 = true →
        (probeLoop f tk fuel m₁).2 = (probeLoop f tk fuel m₂).2) := by
  intro fuel
  induction fuel with
  | zero =>
    intro m₁ m₂ _ _ _ _ _
    rw [probeLoop_stuck, probeLoop_stuck]
    exact ⟨rfl, fun h => Bool.noConfusion h⟩
  | succ k ih =>
    intro m₁ m₂ hl hs hk hp hh
    cases hv : tableGet (f.tables.getD m₁.hpos []) m₁.kpos with
    | none =>
      have hv₂ : tableGet (f.tables.getD m₂.hpos []) m₂.kpos = none := by
        rw [← hp, ← hk]
        exact hv
      have e₁ : probeLoop f tk (k + 1) m₁ = (false, m₁) := by
        simp only [probeLoop, hv]
      have e₂ : probeLoop f tk (k + 1) m₂ = (false, m₂) := by
        simp only [probeLoop, hv₂]
      rw [e₁, e₂]
      exact ⟨rfl, fun h => Bool.noConfusion h⟩
    | some e =>
      have hv₂ : tableGet (f.tables.getD m₂.hpos []) m₂.kpos = some e := by
        rw [← hp, ← hk]
        exact hv
      by_cases hc : ((e.1 == m₁.khash) && (recordKey f e.2 == tk)) = true
      · have hc₂ : ((e.1 == m₂.khash) && (recordKey f e.2 == tk)) = true := by
          rw [← hh]
          exact hc
        have e₁ : probeLoop f tk (k + 1) m₁
            = (true,
              { m₁ with
                kpos := (m₁.kpos + 1) % m₁.hslots
                loop := m₁.loop + 1
                dpos := e.2
                dlen := (recordVal f e.2).length }) := by
          simp only [probeLoop, hv, if_pos hc]
        have e₂ : probeLoop f tk (k + 1) m₂
            = (true,
              { m₂ with
                kpos := (m₂.kpos + 1) % m₂.hslots
                loop := m₂.loop + 1
                dpos := e.2
                dlen := (recordVal f e.2).length }) := by
          simp only [probeLoop, hv₂, if_pos hc₂]
        rw [e₁, e₂]
        refine ⟨rfl, fun _ => ?_⟩
        rw [hl, hs, hk, hp, hh]
      · have hc₂ : ¬ ((e.1 == m₂.khash) && (recordKey f e.2 == tk)) = true := by
          rw [← hh]
          exact hc
        have e₁ : probeLoop f tk (k + 1) m₁
            = probeLoop f tk k
              { m₁ with kpos := (m₁.kpos + 1) % m₁.hslots, loop := m₁.loop + 1 } := by
          simp only [probeLoop, hv, if_neg hc]
        have e₂ : probeLoop f tk (k + 1) m₂
            = probeLoop f tk k
              { m₂ with kpos := (m₂.kpos + 1) % m₂.hslots, loop := m₂.loop + 1 } := by
          simp only [probeLoop, hv₂, if_neg hc₂]
        rw [e₁, e₂]
        exact ih _ _ (by dsimp only; omega) hs
          (by dsimp only; rw [hk, hs]) hp hh

theorem findtagnext_init (f : McdbFile) (key : List Nat) (tag : Nat)
    (m : Mcdb) (hm : m.loop = 0) :
    mcdb_findtagnext f key tag m
      = (if (bucketOf f (taggedKey tag key)).length = 0 then (false, m)
         else probeLoop f (taggedKey tag key)
            (bucketOf f (taggedKey tag key)).length
            { m with
              khash := hashDjb (taggedKey tag key)
              hslots := (bucketOf f (taggedKey tag key)).length
              hpos := slotOfHash (hashDjb (taggedKey tag key))
              kpos := startOfHash (hashDjb (taggedKey tag key))
                (bucketOf f (taggedKey tag key)).length
              loop := 0 }) := by
  simp only [mcdb_findtagnext]
  rw [if_pos hm]
  rfl

theorem findIter_restart (f : McdbFile) (key : List Nat) (tag : Nat) :
    ∀ (fuel : Nat) (m₁ m₂ : Mcdb), m₁.loop = 0 → m₂.loop = 0 →
      findIter f key tag fuel m₁ = findIter f key tag fuel m₂ := by
  intro fuel m₁ m₂ h₁ h₂
  cases fuel with
  | zero => rfl
  | succ k =>
    rw [findIter, findIter, findtagnext_init f key tag m₁ h₁,
      findtagnext_init f key tag m₂ h₂]
    by_cases hz : (bucketOf f (taggedKey tag key)).length = 0
    · rw [if_pos hz, if_pos hz]
      rfl
    · rw [if_neg hz, if_neg hz]
      obtain ⟨hb, hstate⟩ := probeLoop_congr f (taggedKey tag key)
        (bucketOf f (taggedKey tag key)).length
        { m₁ with
          khash := hashDjb (taggedKey tag key)
          hslots := (bucketOf f (taggedKey tag key)).length
          hpos := slotOfHash (hashDjb (taggedKey tag key))
          kpos := startOfHash (hashDjb (taggedKey tag key))
            (bucketOf f (taggedKey tag key)).length
          loop := 0 }
        { m₂ with
          khash := hashDjb (taggedKey tag key)
          hslots := (bucketOf f (taggedKey tag key)).length
          hpos := slotOfHash (hashDjb (taggedKey tag key))
          kpos := startOfHash (hashDjb (taggedKey tag key))
            (bucketOf f (taggedKey tag key)).length
          loop := 0 }
        rfl rfl rfl rfl rfl
      cases hv : (probeLoop f (taggedKey tag key)
          (bucketOf f (taggedKey tag key)).length
          { m₁ with
            khash := hashDjb (taggedKey tag key)
            hslots := (bucketOf f (taggedKey tag key)).length
            hpos := slotOfHash (hashDjb (taggedKey tag key))
            kpos := startOfHash (hashDjb (taggedKey tag key))
              (bucketOf f (taggedKey tag key)).length
            loop := 0 }).1 with
    | false =>
        rw [hv] at hb
        rw [← hb]
        rfl
    | true =>
        rw [hv] at hb
        rw [← hb, hstate hv]

/-! ## Auxiliary facts for the claim theorems -/

theorem findtagnext_zero_tagged (f : McdbFile) (tag : Nat) (key : List Nat)
    (m : Mcdb) :
    mcdb_findtagnext f (taggedKey tag key) 0 m
      = mcdb_findtagnext f key tag m := by
  simp only [mcdb_findtagnext, taggedKey_zero]

theorem findIter_zero_tagged (f : McdbFile) (tag : Nat) (key : List Nat) :
    ∀ fuel m, findIter f (taggedKey tag key) 0 fuel m
      = findIter f key tag fuel m := by
  intro fuel
  induction fuel with
  | zero => intro m; rfl
  | succ k ih =>
    intro m
    rw [findIter, findIter, findtagnext_zero_tagged]
    cases hv : (mcdb_findtagnext f key tag m).1 with
    | false => rfl
    | true => rw [ih]

theorem len_ok_lo : mcdb_make_len_ok (2 ^ 31 - 9) = true := by decide

theorem len_ok_hi : mcdb_make_len_ok (2 ^ 31 - 8) = false := by decide

/-! # Claim theorems -/

/-- C1 — the constants as the code writes them: `MCDB_SLOT_BITS` is 8, but
`MCDB_SLOTS = 1u << (MCDB_SLOT_BITS - 1)` (src/mcdb.h line 188) evaluates to
128, not the 256 that the claim, the spec and the code's own comments
(`2^8 = 256`, `256*16=4096`) state; hence `MCDB_SLOT_MASK` is 127 (a 7-bit
mask, not the low 8 bits) and `MCDB_HEADER_SZ` is 2048, not 4096. -/
theorem mcdb_slots_constants_eval :
    MCDB_SLOT_BITS = 8 ∧ MCDB_SLOTS = 128 ∧ MCDB_SLOT_MASK = 127 ∧
    MCDB_HEADER_SZ = 2048 ∧ (MCDB_SLOTS == 256) = false ∧
    (MCDB_SLOT_MASK == 255) = false ∧ (MCDB_HEADER_SZ == 4096) = false := by
  decide

/-- C2 — every lookup terminates within the bucket's table size: a
`mcdb_findtagnext` call never pushes the cursor's `loop` counter past
`hslots` (so one call performs at most `hslots` probe steps, each step
incrementing `loop`), `loop` never decreases on the continuing path, and
once `loop` has reached `hslots` the call returns `false` and leaves the
cursor unchanged (spec 4.5 step 3). -/
theorem findtagnext_probe_bound (f : McdbFile) (key : List Nat) (tag : Nat)
    (m : Mcdb) (h : m.loop ≤ m.hslots) :
    m.loop ≤ ((mcdb_findtagnext f key tag m).2).loop ∧
    ((mcdb_findtagnext f key tag m).2).loop
      ≤ ((mcdb_findtagnext f key tag m).2).hslots ∧
    (0 < m.loop → m.loop = m.hslots →
      mcdb_findtagnext f key tag m = (false, m)) := by
  by_cases h0 : m.loop = 0
  · rw [findtagnext_init f key tag m h0]
    by_cases hz : (bucketOf f (taggedKey tag key)).length = 0
    · rw [if_pos hz]
      exact ⟨le_refl _, h, fun hp _ => absurd h0 (by omega)⟩
    · rw [if_neg hz]
      obtain ⟨h1, h2, h3⟩ := probeLoop_fields f (taggedKey tag key)
        (bucketOf f (taggedKey tag key)).length
        { m with
          khash := hashDjb (taggedKey tag key)
          hslots := (bucketOf f (taggedKey tag key)).length
          hpos := slotOfHash (hashDjb (taggedKey tag key))
          kpos := startOfHash (hashDjb (taggedKey tag key))
            (bucketOf f (taggedKey tag key)).length
          loop := 0 }
      dsimp only at h1 h2 h3
      refine ⟨by omega, by omega, fun hp _ => absurd h0 (by omega)⟩
  · have hnext : mcdb_findtagnext f key tag m
        = probeLoop f (taggedKey tag key) (m.hslots - m.loop) m := by
      simp only [mcdb_findtagnext]
      rw [if_neg h0]
    rw [hnext]
    obtain ⟨h1, h2, h3⟩ := probeLoop_fields f (taggedKey tag key)
      (m.hslots - m.loop) m
    refine ⟨h2, by omega, fun _ heq => ?_⟩
    rw [heq, Nat.sub_self, probeLoop_stuck]

/-- C2 witness: a cursor mid-iteration with `loop = hslots = 1` on an empty
file; the call returns `false` without moving the cursor. -/
theorem findtagnext_probe_bound_witness :
    (⟨1, 1, 0, 0, 0, 0, 0⟩ : Mcdb).loop ≤ (⟨1, 1, 0, 0, 0, 0, 0⟩ : Mcdb).hslots ∧
    ((⟨1, 1, 0, 0, 0, 0, 0⟩ : Mcdb).loop
        ≤ ((mcdb_findtagnext ⟨[], []⟩ [7] 0 ⟨1, 1, 0, 0, 0, 0, 0⟩).2).loop ∧
      ((mcdb_findtagnext ⟨[], []⟩ [7] 0 ⟨1, 1, 0, 0, 0, 0, 0⟩).2).loop
        ≤ ((mcdb_findtagnext ⟨[], []⟩ [7] 0 ⟨1, 1, 0, 0, 0, 0, 0⟩).2).hslots ∧
      (0 < (⟨1, 1, 0, 0, 0, 0, 0⟩ : Mcdb).loop →
        (⟨1, 1, 0, 0, 0, 0, 0⟩ : Mcdb).loop = (⟨1, 1, 0, 0, 0, 0, 0⟩ : Mcdb).hslots →
        mcdb_findtagnext ⟨[], []⟩ [7] 0 ⟨1, 1, 0, 0, 0, 0, 0⟩
          = (false, ⟨1, 1, 0, 0, 0, 0, 0⟩))) :=
  ⟨by decide, findtagnext_probe_bound ⟨[], []⟩ [7] 0 ⟨1, 1, 0, 0, 0, 0, 0⟩ (by decide)⟩

/-- C3 — duplicate keys are permitted and preserved, and retrieval returns
them in insertion order: the builder accepts a pair regardless of the pairs
already added (acceptance depends only on the two lengths) and appends it to
the record stream; and for every input sequence and every key, the reader's
successive `find_next` calls (`mcdb_findall`) return exactly the values
inserted under that key, in insertion order. -/
theorem duplicate_keys_insertion_order :
    (∀ (st : McdbMake) (key value : List Nat),
      (mcdb_make_add st key value).1
        = (mcdb_make_len_ok key.length && mcdb_make_len_ok value.length) ∧
      (mcdb_make_add st key value).2.pairs
        = (if (mcdb_make_len_ok key.length && mcdb_make_len_ok value.length)
              = true
           then st.pairs ++ [(key, value)] else st.pairs)) ∧
    ∀ (pairs : List (List Nat × List Nat)) (key : List Nat),
      mcdb_findall (mcdb_make_finish ⟨pairs⟩) key
        = (pairs.filter (fun p => p.1 == key)).map (fun p => p.2) := by
  constructor
  · intro st key value
    cases hc : (mcdb_make_len_ok key.length && mcdb_make_len_ok value.length) with
    | true => simp [mcdb_make_add, hc]
    | false => simp [mcdb_make_add, hc]
  · intro pairs key
    have h := findall_tagged_make pairs 0 key
    rw [taggedKey_zero] at h
    exact h

/-- C4 — if the backing file's `(mtime, size)` equal the mapping's stored
values, refresh returns success and leaves all state unchanged: the result
is `(true, map)` for every possible `mcdb_mmap_reopen` (so reopen is not
invoked, no new mapping is constructed, and neither `next` nor `refcnt` of
the returned mapping changes); and `mcdb_mmap_reopen` is invoked exactly
when `mcdb_mmap_refresh_check` reports a difference. -/
theorem mmap_refresh_unchanged_is_noop (reopen : McdbMmap → Bool × McdbMmap)
    (stMtime stSize : Nat) (map : McdbMmap) :
    (stMtime = map.mtime → stSize = map.size →
      mcdb_mmap_refresh reopen stMtime stSize map = (true, map)) ∧
    (mcdb_mmap_refresh_check stMtime stSize map = true →
      mcdb_mmap_refresh reopen stMtime stSize map = reopen map) := by
  constructor
  · intro h1 h2
    have hc : mcdb_mmap_refresh_check stMtime stSize map = false := by
      rw [mcdb_mmap_refresh_check, h1, h2]
      simp
    simp [mcdb_mmap_refresh, hc]
  · intro hc
    simp [mcdb_mmap_refresh, hc]

/-- C4 witness: a mapping with `mtime = 20`, `size = 10`; matching stat
values give a no-op success, differing ones invoke reopen. -/
theorem mmap_refresh_unchanged_is_noop_witness :
    mcdb_mmap_refresh (fun _ => (false, McdbMmap.mk 9 9 9 none 9)) 20 10
        (McdbMmap.mk 0 10 20 none 1) = (true, McdbMmap.mk 0 10 20 none 1) ∧
    mcdb_mmap_refresh (fun _ => (false, McdbMmap.mk 9 9 9 none 9)) 21 10
        (McdbMmap.mk 0 10 20 none 1)
      = (false, McdbMmap.mk 9 9 9 none 9) :=
  ⟨(mmap_refresh_unchanged_is_noop _ 20 10 _).1 rfl rfl,
   (mmap_refresh_unchanged_is_noop _ 21 10 _).2 rfl⟩

/-- C5 — `mcdb_find` is exactly the short-circuit two-call composition of
the cursor operations at tag 0: it equals `mcdb_findtagnext` applied after
`mcdb_findtagstart` when the start call reports `true`, returns
`(false, _)` without calling `findnext` otherwise, and its success flag is
the conjunction of the two calls' flags. -/
theorem mcdb_find_two_call_composition (f : McdbFile) (key : List Nat)
    (m : Mcdb) :
    mcdb_find f key m
      = (if (mcdb_findtagstart f key 0 m).1 = true
         then mcdb_findtagnext f key 0 (mcdb_findtagstart f key 0 m).2
         else (false, (mcdb_findtagstart f key 0 m).2)) ∧
    (mcdb_find f key m).1
      = ((mcdb_findtagstart f key 0 m).1
          && (mcdb_findtagnext f key 0 (mcdb_findtagstart f key 0 m).2).1) := by
  constructor
  · rfl
  · show (mcdb_findtagnext f key 0 { m with loop := 0 }).1
        = (true && (mcdb_findtagnext f key 0 { m with loop := 0 }).1)
    rw [Bool.true_and]

/-- C6 — `mcdb_findtagstart` always succeeds: it returns `true` for every
cursor, key, length and tag, resets the cursor's probe counter `loop` to 0,
and thereby resets the match state: the subsequent `find_next` iteration is
independent of whatever state the cursor held before, i.e. iteration
restarts from the beginning of the probe sequence. -/
theorem findtagstart_true_and_resets (f : McdbFile) (key : List Nat)
    (tag : Nat) (m : Mcdb) :
    mcdb_findtagstart f key tag m = (true, { m with loop := 0 }) ∧
    ((mcdb_findtagstart f key tag m).2).loop = 0 ∧
    ∀ (m' : Mcdb) (fuel : Nat),
      findIter f key tag fuel (mcdb_findtagstart f key tag m).2
        = findIter f key tag fuel (mcdb_findtagstart f key tag m').2 :=
  ⟨rfl, rfl, fun m' fuel => findIter_restart f key tag fuel _ _ rfl rfl⟩

/-- C7 — the builder's length boundary sits exactly at `INT_MAX - 8`: a key
or value of length `2^31 - 9` is accepted and one of length `2^31 - 8` is
rejected, for keys and for values, whatever the rest of the builder state. -/
theorem make_length_boundary :
    mcdb_make_len_ok (2 ^ 31 - 9) = true ∧
    mcdb_make_len_ok (2 ^ 31 - 8) = false ∧
    (∀ n, mcdb_make_len_ok n = decide (n ≤ 2 ^ 31 - 9)) ∧
    (∀ (st : McdbMake) (v : List Nat),
      (mcdb_make_add st (List.replicate (2 ^ 31 - 9) 0) v).1
        = mcdb_make_len_ok v.length) ∧
    (∀ (st : McdbMake) (v : List Nat),
      (mcdb_make_add st (List.replicate (2 ^ 31 - 8) 0) v).1 = false) ∧
    (∀ (st : McdbMake) (k : List Nat),
      (mcdb_make_add st k (List.replicate (2 ^ 31 - 8) 0)).1 = false) := by
  refine ⟨len_ok_lo, len_ok_hi, ?_, ?_, ?_, ?_⟩
  · intro n
    rw [mcdb_make_len_ok, decide_eq_decide]
    omega
  · intro st v
    rw [mcdb_make_add]
    rw [List.length_replicate, len_ok_lo, Bool.true_and]
    cases hv : mcdb_make_len_ok v.length with
    | true => rw [if_pos rfl]
    | false => rw [if_neg (by simp)]
  · intro st v
    rw [mcdb_make_add, List.length_replicate, len_ok_hi, Bool.false_and,
      if_neg (by simp)]
  · intro st k
    rw [mcdb_make_add, List.length_replicate, len_ok_hi, Bool.and_false,
      if_neg (by simp)]

/-- C8 — a non-zero tag partitions the key namespace: a tagged lookup
behaves exactly as an untagged lookup of the tag-prepended key; the
untagged `mcdb_findstart`/`mcdb_findnext` macros are the tag-0
specializations of the tagged operations; and on a database built from
tagged inputs with all tags non-zero, a lookup with one tag returns exactly
the values stored under that tag and key, in insertion order. -/
theorem tag_partitions_key_namespace :
    (∀ (f : McdbFile) (tag : Nat) (key : List Nat),
      mcdb_findall_tagged f tag key = mcdb_findall f (taggedKey tag key)) ∧
    (∀ (f : McdbFile) (key : List Nat) (m : Mcdb),
      mcdb_findstart f key m = mcdb_findtagstart f key 0 m ∧
      mcdb_findnext f key m = mcdb_findtagnext f key 0 m) ∧
    ∀ (inputs : List (Nat × List Nat × List Nat)) (tag : Nat) (key : List Nat),
      tag ≠ 0 → (∀ e ∈ inputs, e.1 ≠ 0) →
      mcdb_findall_tagged (mcdb_make_tagged inputs) tag key
        = ((inputs.filter (fun e => (e.1 == tag) && (e.2.1 == key))).map
            (fun e => e.2.2)) := by
  refine ⟨?_, fun f key m => ⟨rfl, rfl⟩, ?_⟩
  · intro f tag key
    rw [mcdb_findall, mcdb_findall_tagged, mcdb_findall_tagged]
    rw [show mcdb_findtagstart f (taggedKey tag key) 0 Mcdb.start
        = mcdb_findtagstart f key tag Mcdb.start from rfl]
    rw [taggedKey_zero, findIter_zero_tagged]
  · intro inputs tag key htag hall
    rw [mcdb_make_tagged, findall_tagged_make, List.filter_map, List.map_map]
    have hfilters : inputs.filter
        ((fun p => p.1 == taggedKey tag key)
          ∘ (fun e => (taggedKey e.1 e.2.1, e.2.2)))
        = inputs.filter (fun e => (e.1 == tag) && (e.2.1 == key)) := by
      apply List.filter_congr
      intro e he
      show (taggedKey e.1 e.2.1 == taggedKey tag key)
          = ((e.1 == tag) && (e.2.1 == key))
      rw [taggedKey, taggedKey, if_neg htag, if_neg (hall e he)]
      by_cases h1 : e.1 = tag
      · by_cases h2 : e.2.1 = key
        · simp [h1, h2]
        · simp [h1, h2]
      · simp [h1]
    rw [hfilters]
    rfl

/-- C8 witness: spec scenario 5 — inserting `(tag=1, "x", "X1")` and
`(tag=2, "x", "X2")` via the tag-prefixing convention, a find with tag 1
returns only `"X1"` (bytes: `"x" = [120]`, `"X1" = [88,49]`). -/
theorem tag_partitions_key_namespace_witness :
    mcdb_findall_tagged
        (mcdb_make_tagged [(1, [120], [88, 49]), (2, [120], [88, 50])]) 1 [120]
      = [[88, 49]] :=
  (tag_partitions_key_namespace.2.2 [(1, [120], [88, 49]), (2, [120], [88, 50])]
      1 [120] (by decide) (by decide)).trans (by decide)

/-- C9 — `mcdb_thread_refresh_self` returns `true` and changes nothing when
the mapping's successor pointer is null; only when a successor has been
published does it re-register, which is exactly
`mcdb_mmap_thread_registration` with `MCDB_REGISTER_USE_INCR` and moves the
caller's map pointer to the successor-chain head with that head's refcount
incremented.  (The model takes no file-system state: the operation never
inspects the file on disk and never constructs a mapping.) -/
theorem thread_refresh_self_spec (map : McdbMmap) :
    (map.next = none → mcdb_thread_refresh_self map = (true, map)) ∧
    (∀ nxt, map.next = some nxt →
      mcdb_thread_refresh_self map = mcdb_thread_register map ∧
      mcdb_thread_register map
        = mcdb_mmap_thread_registration map MCDB_REGISTER_USE_INCR ∧
      mcdb_thread_refresh_self map = (true, map.chainHead.incrRef)) := by
  constructor
  · intro h
    simp only [mcdb_thread_refresh_self, h]
  · intro nxt h
    refine ⟨by simp only [mcdb_thread_refresh_self, h], rfl, ?_⟩
    simp only [mcdb_thread_refresh_self, h, mcdb_thread_register,
      mcdb_mmap_thread_registration]
    rw [if_pos (by decide : registrationRequestsIncr MCDB_REGISTER_USE_INCR = true)]

/-- C9 witness: a mapping with no successor is left untouched with result
`true`; a mapping with a published successor re-registers at the chain head,
whose refcount is incremented. -/
theorem thread_refresh_self_spec_witness :
    mcdb_thread_refresh_self (McdbMmap.mk 0 0 0 none 0)
      = (true, McdbMmap.mk 0 0 0 none 0) ∧
    mcdb_thread_refresh_self
        (McdbMmap.mk 1 2 3 (some (McdbMmap.mk 4 5 6 none 7)) 8)
      = (true, McdbMmap.mk 4 5 6 none 8) :=
  ⟨(thread_refresh_self_spec (McdbMmap.mk 0 0 0 none 0)).1 rfl,
   ((thread_refresh_self_spec
      (McdbMmap.mk 1 2 3 (some (McdbMmap.mk 4 5 6 none 7)) 8)).2
      (McdbMmap.mk 4 5 6 none 7) rfl).2.2⟩

/-- C10 — in the registration flag enum, `MCDB_REGISTER_USE_DECR` is 0 and
the other four flags are the distinct single bits 1, 2, 4, 8; a
registration call requests a refcount decrement exactly when its flag word
lacks the `MCDB_REGISTER_USE_INCR` bit (bit 0), so an increment and a
decrement can never both be requested in one call, and the registration
operation increments at the chain head exactly on the INCR branch and
decrements otherwise. -/
theorem register_flag_bits :
    MCDB_REGISTER_USE_DECR = 0 ∧ MCDB_REGISTER_USE_INCR = 1 ∧
    MCDB_REGISTER_MUNMAP_SKIP = 2 ∧ MCDB_REGISTER_MUTEX_LOCK_HOLD = 4 ∧
    MCDB_REGISTER_MUTEX_UNLOCK_HOLD = 8 ∧
    (∀ flags : Nat, registrationRequestsDecr flags = !(flags.testBit 0)) ∧
    (∀ flags : Nat,
      (registrationRequestsIncr flags && registrationRequestsDecr flags)
        = false) ∧
    (∀ (map : McdbMmap) (flags : Nat),
      mcdb_mmap_thread_registration map flags
        = if registrationRequestsIncr flags = true
          then (true, map.chainHead.incrRef) else (true, map.decrRef)) := by
  refine ⟨rfl, rfl, rfl, rfl, rfl, ?_, ?_, ?_⟩
  · intro flags
    show (flags &&& 1 == 0) = !(flags.testBit 0)
    rw [Nat.and_one_is_mod, Nat.testBit_zero]
    rcases Nat.mod_two_eq_zero_or_one flags with h | h <;> simp [h]
  · intro flags
    show ((flags &&& 1 != 0) && (flags &&& 1 == 0)) = false
    cases h : flags &&& 1 <;> simp
  · intro map flags
    rw [mcdb_mmap_thread_registration]
